import Mathlib

/-!
# Verification of the rsa-image-encryption-demo repository

Shallow embedding of the two source files:

* `src/image_encrypt_demo.py` — a symmetric XOR image cipher over 2-D grids
  of unsigned 8-bit values (numpy arrays).  Grids are modelled by `Grid`:
  an explicit shape `(height, width)` plus row-major data.  `np.bitwise_xor`
  is a numpy ufunc, so it follows numpy broadcasting rules; `bitwise_xor`
  models those rules for 2-D operands (a dimension is compatible when the
  two sizes agree or one of them is 1, otherwise numpy raises `ValueError`).

* `src/rsa_demo.py` — RSA-OAEP via the external `cryptography` library.
  The library primitives (`rsa.generate_private_key`, OAEP with MGF1,
  PEM serialization with `BestAvailableEncryption`) are modelled from the
  library's documented semantics (RFC 8017 for OAEP).  The hash algorithm
  (SHA-256 in the source) is an external collaborator and is kept abstract
  as a `HashAlg` (a hash map plus its digest size); randomness (the OAEP
  seed, the generated primes, the random key matrix) is passed explicitly.

Python exceptions are modelled by `PyError` (`ValueError` / `TypeError`);
fallible calls return `Except PyError _`.
-/

deriving instance DecidableEq for Except

/-- A Python exception as raised by numpy / the cryptography library.
The source has no typed error hierarchy of its own. -/
inductive PyError where
  | valueError : PyError
  | typeError : PyError
deriving DecidableEq

/-- A 2-D numpy array of unsigned 8-bit values: an explicit shape
`(height, width)` (numpy keeps the shape as metadata, so a 0×w array
still records width w) plus row-major data. -/
structure Grid where
  height : Nat
  width : Nat
  rows : List (List Nat)
deriving DecidableEq

/-- Cell access `a[i][j]`, defaulting to 0 out of range. -/
def Grid.cell (a : Grid) (i j : Nat) : Nat :=
  (a.rows.getD i []).getD j 0

/-- Well-formedness: the data has the declared shape and every value fits
in an unsigned 8-bit cell. -/
def Grid.wf (a : Grid) : Prop :=
  a.rows.length = a.height ∧
  (∀ r ∈ a.rows, r.length = a.width) ∧
  (∀ r ∈ a.rows, ∀ v ∈ r, v < 256)

instance (a : Grid) : Decidable a.wf := by
  unfold Grid.wf; infer_instance

/-- numpy: two sizes of one axis are broadcast-compatible when they agree
or one of them is 1. -/
def dimCompat (d1 d2 : Nat) : Bool :=
  d1 == d2 || d1 == 1 || d2 == 1

/-- numpy: the broadcast size of one axis. -/
def dimBroadcast (d1 d2 : Nat) : Nat :=
  if d1 == 1 then d2 else d1

/-- numpy: the index used along an axis of size `d` when the result index
is `i` (an axis of size 1 is repeated). -/
def bcastIndex (d i : Nat) : Nat :=
  if d == 1 then 0 else i

/-- Model of `np.bitwise_xor` on two 2-D uint8 arrays: element-wise XOR under numpy
broadcasting; raises `ValueError` ("operands could not be broadcast
together") when the shapes are incompatible. -/
def bitwise_xor (a b : Grid) : Except PyError Grid :=
  if dimCompat a.height b.height && dimCompat a.width b.width then
    let H := dimBroadcast a.height b.height
    let W := dimBroadcast a.width b.width
    .ok ⟨H, W, (List.range H).map fun i => (List.range W).map fun j =>
      Nat.xor (a.cell (bcastIndex a.height i) (bcastIndex a.width j))
              (b.cell (bcastIndex b.height i) (bcastIndex b.width j))⟩
  else
    .error .valueError

/-- Model of `generate_key_matrix` (src/image_encrypt_demo.py:29-34):
`np.random.randint(0, 256, size=shape, dtype=np.uint8)`.  The random
source is passed explicitly as `rng` (value drawn at cell `(i, j)`;
`randint(0, 256)` keeps it below 256, modelled by `% 256`).  numpy raises
`ValueError` ("negative dimensions are not allowed") on a negative size
and returns an empty array on a zero size. -/
def generate_key_matrix (rng : Nat → Nat → Nat) (shape : Int × Int) :
    Except PyError Grid :=
  if shape.1 < 0 ∨ shape.2 < 0 then
    .error .valueError
  else
    .ok ⟨shape.1.toNat, shape.2.toNat,
      (List.range shape.1.toNat).map fun i =>
        (List.range shape.2.toNat).map fun j => rng i j % 256⟩

/-- Model of `encrypt_image` (src/image_encrypt_demo.py:37-43):
`cipher = np.bitwise_xor(image_arr, key_arr)`. -/
def encrypt_image (image_arr key_arr : Grid) : Except PyError Grid :=
  bitwise_xor image_arr key_arr

/-- Model of `decrypt_image` (src/image_encrypt_demo.py:46-53):
`plain = np.bitwise_xor(cipher_arr, key_arr)`. -/
def decrypt_image (cipher_arr key_arr : Grid) : Except PyError Grid :=
  bitwise_xor cipher_arr key_arr

/-- Model of `xor_two_cipher_images` (src/image_encrypt_demo.py:69-82):
`h = min(shape[0]s)`, `w = min(shape[1]s)`, slice both arrays to
`[:h, :w]` and XOR the equal-shaped slices element-wise.  The slices have
the same shape, so the final `np.bitwise_xor` cannot fail; cell `(i, j)`
of the result is `c1[i][j] XOR c2[i][j]`. -/
def xor_two_cipher_images (cipher_arr1 cipher_arr2 : Grid) : Grid :=
  let h := min cipher_arr1.height cipher_arr2.height
  let w := min cipher_arr1.width cipher_arr2.width
  ⟨h, w, (List.range h).map fun i => (List.range w).map fun j =>
    Nat.xor (cipher_arr1.cell i j) (cipher_arr2.cell i j)⟩

/-! ## RSA model (src/rsa_demo.py and its external cryptography library) -/

/-- Fuel-bounded base-256 digit count (structural in the fuel so the
kernel can evaluate it). -/
def byteLengthAux : Nat → Nat → Nat
  | 0, _ => 0
  | fuel + 1, n => if n = 0 then 0 else byteLengthAux fuel (n / 256) + 1

/-- Byte length of a nonnegative integer, `(n.bit_length() + 7) // 8` as the
cryptography library computes the modulus size `k`: the least `k` with
`n < 256 ^ k`. -/
def byteLength (n : Nat) : Nat :=
  byteLengthAux (n + 1) n

/-- Fuel-bounded modular exponentiation by square-and-multiply, the
`pow(base, exp, mod)` the cryptographic provider performs (structural in
the fuel so the kernel can evaluate it). -/
def powModAux : Nat → Nat → Nat → Nat → Nat
  | 0, _, _, n => 1 % n
  | fuel + 1, b, e, n =>
    if e = 0 then 1 % n
    else
      let r := powModAux fuel (b * b % n) (e / 2) n
      if e % 2 = 1 then r * b % n else r

/-- Modular exponentiation `b ^ e mod n` by square-and-multiply. -/
def powMod (b e n : Nat) : Nat :=
  powModAux (e + 1) b e n

/-- RFC 8017 OS2IP: big-endian byte string to nonnegative integer. -/
def os2ip (bs : List Nat) : Nat :=
  bs.foldl (fun acc b => acc * 256 + b) 0

/-- RFC 8017 I2OSP: nonnegative integer to big-endian byte string of the
given length (truncating to the low bytes like the library's fixed-width
conversion). -/
def i2osp : Nat → Nat → List Nat
  | _, 0 => []
  | x, len + 1 => i2osp (x / 256) len ++ [x % 256]

/-- Byte-wise XOR of two equal-length byte strings. -/
def xorBytes (a b : List Nat) : List Nat :=
  List.zipWith Nat.xor a b

/-- The hash-algorithm collaborator (the source fixes it to SHA-256, whose
implementation lives in the external `cryptography` library): the hash map
together with its advertised digest size. -/
structure HashAlg where
  hash : List Nat → List Nat
  digest_size : Nat

/-- A well-behaved hash algorithm: positive digest size, and every digest
is a byte string of exactly that length.  SHA-256 satisfies this with
`digest_size = 32`. -/
def HashAlg.ok (alg : HashAlg) : Prop :=
  0 < alg.digest_size ∧
  ∀ x, (alg.hash x).length = alg.digest_size ∧ ∀ b ∈ alg.hash x, b < 256

/-- RFC 8017 MGF1 over the given hash: concatenate `hash(seed ‖ C)` for
counters `C = 0, 1, ...` (4-byte big-endian) and keep the leading
`maskLen` bytes.  `maskLen / digest_size + 1` blocks always suffice, and
`take maskLen` discards any surplus, so this agrees with the RFC's
`ceil(maskLen / hLen)` blocks. -/
def mgf1 (alg : HashAlg) (mgfSeed : List Nat) (maskLen : Nat) : List Nat :=
  List.take maskLen
    ((List.range (maskLen / alg.digest_size + 1)).flatMap fun c =>
      alg.hash (mgfSeed ++ i2osp c 4))

/-- RFC 8017 EME-OAEP encoding (the library's OAEP path with `label=None`,
so `lHash = hash("")`): rejects a plaintext longer than
`k - 2*hLen - 2` (the library raises `ValueError` "Data too long for key
size"), otherwise builds `EM = 0x00 ‖ maskedSeed ‖ maskedDB`.  The random
seed (hLen bytes drawn by the library) is passed explicitly. -/
def oaep_pad (alg : HashAlg) (k : Nat) (seed msg : List Nat) :
    Except PyError (List Nat) :=
  let hLen := alg.digest_size
  if (msg.length : Int) > (k : Int) - 2 * (hLen : Int) - 2 then
    .error .valueError
  else
    let lHash := alg.hash []
    let ps := List.replicate (k - msg.length - 2 * hLen - 2) 0
    let db := lHash ++ ps ++ 1 :: msg
    let dbMask := mgf1 alg seed (k - hLen - 1)
    let maskedDB := xorBytes db dbMask
    let seedMask := mgf1 alg maskedDB hLen
    let maskedSeed := xorBytes seed seedMask
    .ok (0 :: maskedSeed ++ maskedDB)

/-- RFC 8017 EME-OAEP decoding: undo the two masks and check the frame
(leading 0x00 byte, `lHash`, then the PS zero padding terminated by the
0x01 separator).  Any violation is the library's uniform `ValueError`
("Decryption failed"). -/
def oaep_unpad (alg : HashAlg) (k : Nat) (em : List Nat) :
    Except PyError (List Nat) :=
  let hLen := alg.digest_size
  if em.length ≠ k ∨ (k : Int) < 2 * (hLen : Int) + 2 then
    .error .valueError
  else
    match em with
    | [] => .error .valueError
    | y :: rest =>
      let maskedSeed := rest.take hLen
      let maskedDB := rest.drop hLen
      let seedMask := mgf1 alg maskedDB hLen
      let seed := xorBytes maskedSeed seedMask
      let dbMask := mgf1 alg seed (k - hLen - 1)
      let db := xorBytes maskedDB dbMask
      if y ≠ 0 ∨ db.take hLen ≠ alg.hash [] then
        .error .valueError
      else
        match (db.drop hLen).dropWhile (fun b => b == 0) with
        | 1 :: m => .ok m
        | _ => .error .valueError

/-- The OAEP data block `DB = lHash ‖ PS ‖ 0x01 ‖ M` built by `oaep_pad`. -/
def oaepDB (alg : HashAlg) (k : Nat) (msg : List Nat) : List Nat :=
  alg.hash [] ++ List.replicate (k - msg.length - 2 * alg.digest_size - 2) 0 ++ 1 :: msg

/-- The block `maskedDB = DB XOR MGF1(seed)` as built by `oaep_pad`. -/
def oaepMaskedDB (alg : HashAlg) (k : Nat) (seed msg : List Nat) : List Nat :=
  xorBytes (oaepDB alg k msg) (mgf1 alg seed (k - alg.digest_size - 1))

/-- The block `maskedSeed = seed XOR MGF1(maskedDB)` as built by `oaep_pad`. -/
def oaepMaskedSeed (alg : HashAlg) (k : Nat) (seed msg : List Nat) : List Nat :=
  xorBytes seed (mgf1 alg (oaepMaskedDB alg k seed msg) alg.digest_size)

/-- The encoded message `EM = 0x00 ‖ maskedSeed ‖ maskedDB` built by
`oaep_pad` on the non-error path. -/
def oaepEM (alg : HashAlg) (k : Nat) (seed msg : List Nat) : List Nat :=
  0 :: oaepMaskedSeed alg k seed msg ++ oaepMaskedDB alg k seed msg

/-- An RSA private key object as held by the library: the two primes, the
modulus, and the public/private exponents (CRT values are omitted; they
are a performance detail derivable from these). -/
structure RsaPrivateKey where
  p : Nat
  q : Nat
  n : Nat
  e : Nat
  d : Nat
deriving DecidableEq

/-- An RSA public key object: modulus and public exponent. -/
structure RsaPublicKey where
  n : Nat
  e : Nat
deriving DecidableEq

/-- The accessor `private_key.public_key()`. -/
def RsaPrivateKey.public_key (sk : RsaPrivateKey) : RsaPublicKey :=
  ⟨sk.n, sk.e⟩

/-- Fuel-bounded extended Euclid: `egcdAux fuel a b = (g, x, y)` with
`g = gcd a b = x*a + y*b` once `fuel` dominates the recursion depth
(structural in the fuel, so the kernel can evaluate it). -/
def egcdAux : Nat → Nat → Nat → Nat × Int × Int
  | 0, a, _ => (a, 1, 0)
  | fuel + 1, a, b =>
    if b = 0 then (a, 1, 0)
    else
      let r := egcdAux fuel b (a % b)
      (r.1, r.2.2, r.2.1 - (a / b : Nat) * r.2.2)

/-- Modular inverse of `a` modulo `m` via the extended Euclid, as the
library computes the private exponent from the public one. -/
def modInverse (a m : Nat) : Nat :=
  (((egcdAux (a + m + 1) a m).2.1 % (m : Int) + m) % (m : Int)).toNat

/-- Model of the external collaborator `rsa.generate_private_key`
(the `cryptography` library): it validates that `public_exponent` is
3 or 65537 and that `key_size` is at least 512 bits (both `ValueError`
otherwise — the library enforces no 2048-bit floor), then derives the key
from two freshly generated primes.  Prime generation is the library's
CSPRNG; the primes are passed explicitly as `p` and `q`. -/
def rsa_generate_private_key (public_exponent key_size : Nat) (p q : Nat) :
    Except PyError RsaPrivateKey :=
  if public_exponent ≠ 3 ∧ public_exponent ≠ 65537 then
    .error .valueError
  else if key_size < 512 then
    .error .valueError
  else
    .ok ⟨p, q, p * q, public_exponent,
      modInverse public_exponent ((p - 1) * (q - 1))⟩

/-- Model of `generate_rsa_key_pair` (src/rsa_demo.py:8-19): no validation of its
own; delegates to `rsa.generate_private_key(public_exponent=65537,
key_size=key_size)` and pairs the result with its public key. -/
def generate_rsa_key_pair (p q : Nat) (key_size : Nat := 2048) :
    Except PyError (RsaPrivateKey × RsaPublicKey) :=
  (rsa_generate_private_key 65537 key_size p q).map fun sk =>
    (sk, sk.public_key)

/-- Model of `rsa_encrypt` (src/rsa_demo.py:87-102): `public_key.encrypt(plaintext,
OAEP(mgf=MGF1(SHA256), algorithm=SHA256, label=None))`.  The library pads
with EME-OAEP and applies `c = m^e mod n`, returning `k` bytes where `k`
is the modulus byte length.  `alg` stands for the external SHA-256 and
`seed` for the library's internal random OAEP seed. -/
def rsa_encrypt (alg : HashAlg) (public_key : RsaPublicKey)
    (seed plaintext : List Nat) : Except PyError (List Nat) :=
  let k := byteLength public_key.n
  (oaep_pad alg k seed plaintext).map fun em =>
    i2osp (powMod (os2ip em) public_key.e public_key.n) k

/-- Model of `rsa_decrypt` (src/rsa_demo.py:105-120): `private_key.decrypt(
ciphertext, OAEP(mgf=MGF1(SHA256), algorithm=SHA256, label=None))`.  The
library rejects a ciphertext whose length differs from the modulus byte
length (`ValueError`), applies `m = c^d mod n` and EME-OAEP decoding. -/
def rsa_decrypt (alg : HashAlg) (private_key : RsaPrivateKey)
    (ciphertext : List Nat) : Except PyError (List Nat) :=
  let k := byteLength private_key.n
  if ciphertext.length ≠ k then
    .error .valueError
  else
    oaep_unpad alg k
      (i2osp (powMod (os2ip ciphertext) private_key.d private_key.n) k)

/-! ## PEM persistence model (src/rsa_demo.py:25-81)

PEM serialization and the password wrap (`BestAvailableEncryption`, i.e.
PKCS#8 PBES2) live in the external library; the encoded record is
modelled as the key material together with the password it was wrapped
under (`none` = `NoEncryption`), and the file system as an association
list from filename to record.  `load_pem_private_key`'s documented
contract: wrong password ⇒ `ValueError` ("Bad decrypt. Incorrect
password?"), password supplied for an unencrypted record or missing for
an encrypted one ⇒ `TypeError`. -/

/-- An on-disk PEM private-key record. -/
structure PemPrivateRecord where
  wrapPassword : Option (List Nat)
  key : RsaPrivateKey
deriving DecidableEq

/-- The file-system collaborator: filename ↦ written bytes. -/
def FileSystem := List (String × PemPrivateRecord)

/-- Model of `save_private_key_to_pem` (src/rsa_demo.py:25-44): picks
`BestAvailableEncryption(password)` when a password is given (the library
rejects an empty password with `ValueError`) and `NoEncryption()`
otherwise, serializes, and writes the file. -/
def save_private_key_to_pem (fs : FileSystem) (private_key : RsaPrivateKey)
    (filename : String) (password : Option (List Nat)) :
    Except PyError FileSystem :=
  match password with
  | some [] => .error .valueError
  | _ => .ok ((filename, ⟨password, private_key⟩) :: fs)

/-- Model of the external `serialization.load_pem_private_key`. -/
def load_pem_private_key (record : PemPrivateRecord)
    (password : Option (List Nat)) : Except PyError RsaPrivateKey :=
  match record.wrapPassword, password with
  | none, none => .ok record.key
  | none, some _ => .error .typeError
  | some _, none => .error .typeError
  | some pw, some given =>
    if given = pw then .ok record.key else .error .valueError

/-- Model of `load_private_key_from_pem` (src/rsa_demo.py:65-73): read the file and
delegate to `serialization.load_pem_private_key`. -/
def load_private_key_from_pem (fs : FileSystem) (filename : String)
    (password : Option (List Nat)) : Except PyError RsaPrivateKey :=
  match (fs.find? fun entry => entry.1 == filename) with
  | none => .error .valueError
  | some entry => load_pem_private_key entry.2 password

/-- The bytes of the fixed plaintext `b"test"`. -/
def testBytes : List Nat := [116, 101, 115, 116]

/-! ## Lemmas: the symmetric cipher -/

theorem dimCompat_self (d : Nat) : dimCompat d d = true := by
  simp [dimCompat]

theorem dimBroadcast_self (d : Nat) : dimBroadcast d d = d := by
  simp only [dimBroadcast, ite_self]

theorem bcastIndex_of_lt (d i : Nat) (h : i < d) : bcastIndex d i = i := by
  unfold bcastIndex
  split
  · next heq =>
    have : d = 1 := by simpa using heq
    omega
  · rfl

theorem except_bind_ok {ε α β : Type} (a : α) (f : α → Except ε β) :
    (Except.ok a : Except ε α).bind f = f a := rfl

theorem cell_mk_range (H W : Nat) (f : Nat → Nat → Nat) (i j : Nat)
    (hi : i < H) (hj : j < W) :
    (Grid.mk H W ((List.range H).map fun i => (List.range W).map fun j => f i j)).cell i j
      = f i j := by
  unfold Grid.cell
  have h1 : ((List.range H).map fun i => (List.range W).map fun j => f i j).getD i []
      = (List.range W).map fun j => f i j := by
    rw [List.getD_eq_getElem _ _ (by simpa using hi)]
    simp
  rw [h1, List.getD_eq_getElem _ _ (by simpa using hj)]
  simp

theorem grid_eta (P : Grid) (h : P.wf) :
    (Grid.mk P.height P.width
      ((List.range P.height).map fun i => (List.range P.width).map fun j => P.cell i j)) = P := by
  obtain ⟨hlen, hrow, _⟩ := h
  cases P with
  | mk H W rows =>
    simp only at hlen hrow ⊢
    subst hlen
    refine congrArg (Grid.mk _ _) ?_
    apply List.ext_getElem
    · simp
    · intro i h1 h2
      simp only [List.getElem_map, List.getElem_range]
      have hri : rows[i].length = W := hrow _ (List.getElem_mem h2)
      apply List.ext_getElem
      · simpa using hri.symm
      · intro j h3 h4
        simp only [List.getElem_map, List.getElem_range, Grid.cell]
        rw [List.getD_eq_getElem _ _ h2, List.getD_eq_getElem _ _ h4]

theorem bitwise_xor_same_shape (a b : Grid) (hh : a.height = b.height)
    (hw : a.width = b.width) :
    bitwise_xor a b = .ok (Grid.mk a.height a.width
      ((List.range a.height).map fun i => (List.range a.width).map fun j =>
        Nat.xor (a.cell i j) (b.cell i j))) := by
  unfold bitwise_xor
  rw [← hh, ← hw, dimCompat_self, dimCompat_self, dimBroadcast_self, dimBroadcast_self]
  simp only [Bool.and_self, if_true]
  refine congrArg Except.ok (congrArg (Grid.mk _ _) ?_)
  refine List.map_congr_left fun i hi => ?_
  refine List.map_congr_left fun j hj => ?_
  rw [bcastIndex_of_lt _ _ (List.mem_range.mp hi),
    bcastIndex_of_lt _ _ (List.mem_range.mp hj)]

/-- C1: decrypting an encryption with the same same-shaped key gives back
the plaintext, cell for cell. -/
theorem decrypt_encrypt_roundtrip (P K : Grid) (hP : P.wf) (hK : K.wf)
    (hh : P.height = K.height) (hw : P.width = K.width) :
    (encrypt_image P K).bind (fun c => decrypt_image c K) = .ok P := by
  unfold encrypt_image decrypt_image
  rw [bitwise_xor_same_shape P K hh hw]
  rw [except_bind_ok]
  rw [bitwise_xor_same_shape _ K (by simpa using hh) (by simpa using hw)]
  refine congrArg Except.ok ?_
  have hcells : ((List.range P.height).map fun i => (List.range P.width).map fun j =>
      Nat.xor ((Grid.mk P.height P.width
        ((List.range P.height).map fun i => (List.range P.width).map fun j =>
          Nat.xor (P.cell i j) (K.cell i j))).cell i j) (K.cell i j))
      = (List.range P.height).map fun i => (List.range P.width).map fun j => P.cell i j := by
    refine List.map_congr_left fun i hi => ?_
    refine List.map_congr_left fun j hj => ?_
    rw [cell_mk_range _ _ _ _ _ (List.mem_range.mp hi) (List.mem_range.mp hj)]
    exact Nat.xor_cancel_right _ _
  simpa only [hcells] using grid_eta P hP

/-- C1 witness: a concrete 2×2 image and key. -/
theorem decrypt_encrypt_roundtrip_witness :
    (encrypt_image ⟨2, 2, [[1, 2], [3, 4]]⟩ ⟨2, 2, [[255, 0], [7, 9]]⟩).bind
      (fun c => decrypt_image c ⟨2, 2, [[255, 0], [7, 9]]⟩)
      = .ok ⟨2, 2, [[1, 2], [3, 4]]⟩ :=
  decrypt_encrypt_roundtrip ⟨2, 2, [[1, 2], [3, 4]]⟩ ⟨2, 2, [[255, 0], [7, 9]]⟩
    (by decide) (by decide) (by decide) (by decide)

/-- C3 (amended): with differing shapes there is no typed ShapeMismatch
failure; if the two shapes are numpy-broadcast-compatible both operations
return a computed buffer, and only non-broadcastable shapes fail, with
numpy's untyped `ValueError`. -/
theorem mismatched_shapes_broadcast_or_valueError (a b : Grid)
    (hne : a.height ≠ b.height ∨ a.width ≠ b.width) :
    ((dimCompat a.height b.height && dimCompat a.width b.width) = true →
      (encrypt_image a b).isOk = true ∧ (decrypt_image a b).isOk = true) ∧
    ((dimCompat a.height b.height && dimCompat a.width b.width) = false →
      encrypt_image a b = .error .valueError ∧
      decrypt_image a b = .error .valueError) := by
  unfold encrypt_image decrypt_image bitwise_xor
  constructor
  · intro hc
    rw [hc]
    exact ⟨rfl, rfl⟩
  · intro hc
    rw [hc]
    exact ⟨rfl, rfl⟩

/-- C3 counterexample: two well-formed uint8 buffers of different shapes
(2×2 and 1×2) for which `encrypt_image` raises nothing and returns a
fully computed (broadcast) buffer instead of failing. -/
theorem mismatched_shapes_can_return_result :
    Grid.wf ⟨2, 2, [[1, 2], [3, 4]]⟩ ∧ Grid.wf ⟨1, 2, [[5, 6]]⟩ ∧
    (Grid.height ⟨2, 2, [[1, 2], [3, 4]]⟩ ≠ Grid.height ⟨1, 2, [[5, 6]]⟩) ∧
    encrypt_image ⟨2, 2, [[1, 2], [3, 4]]⟩ ⟨1, 2, [[5, 6]]⟩
      = .ok ⟨2, 2, [[4, 4], [6, 2]]⟩ := by
  decide

/-- C3 witness: a 2×2 and a 3×3 buffer are not broadcast-compatible, and
there both operations fail (with the untyped `ValueError`). -/
theorem mismatched_shapes_broadcast_or_valueError_witness :
    encrypt_image ⟨2, 2, [[0, 0], [0, 0]]⟩ ⟨3, 3, [[1, 1, 1], [1, 1, 1], [1, 1, 1]]⟩
      = .error .valueError ∧
    decrypt_image ⟨2, 2, [[0, 0], [0, 0]]⟩ ⟨3, 3, [[1, 1, 1], [1, 1, 1], [1, 1, 1]]⟩
      = .error .valueError :=
  (mismatched_shapes_broadcast_or_valueError ⟨2, 2, [[0, 0], [0, 0]]⟩
    ⟨3, 3, [[1, 1, 1], [1, 1, 1], [1, 1, 1]]⟩ (by decide)).2 (by decide)

/-- C4: `xor_two_cipher_images` returns a buffer of shape
`(min H1 H2, min W1 W2)` whose cell `(i, j)` is `c1[i][j] XOR c2[i][j]`. -/
theorem xor_two_cipher_images_spec (c1 c2 : Grid) (i j : Nat)
    (hi : i < min c1.height c2.height) (hj : j < min c1.width c2.width) :
    (xor_two_cipher_images c1 c2).height = min c1.height c2.height ∧
    (xor_two_cipher_images c1 c2).width = min c1.width c2.width ∧
    (xor_two_cipher_images c1 c2).cell i j = Nat.xor (c1.cell i j) (c2.cell i j) :=
  ⟨rfl, rfl, cell_mk_range _ _ _ _ _ hi hj⟩

/-- C4 witness: a 4×4 all-zero buffer combined with a 4×4 all-255 buffer
gives the 4×4 all-255 buffer; a 2×2 with a 3×3 buffer gives a 2×2 result;
and the theorem instantiates at cell (0,0) of the first pair. -/
theorem xor_two_cipher_images_spec_witness :
    xor_two_cipher_images
        ⟨4, 4, [[0, 0, 0, 0], [0, 0, 0, 0], [0, 0, 0, 0], [0, 0, 0, 0]]⟩
        ⟨4, 4, [[255, 255, 255, 255], [255, 255, 255, 255],
                [255, 255, 255, 255], [255, 255, 255, 255]]⟩
      = ⟨4, 4, [[255, 255, 255, 255], [255, 255, 255, 255],
                [255, 255, 255, 255], [255, 255, 255, 255]]⟩ ∧
    (xor_two_cipher_images ⟨2, 2, [[1, 2], [3, 4]]⟩
        ⟨3, 3, [[5, 6, 7], [8, 9, 10], [11, 12, 13]]⟩).height = 2 ∧
    (xor_two_cipher_images ⟨2, 2, [[1, 2], [3, 4]]⟩
        ⟨3, 3, [[5, 6, 7], [8, 9, 10], [11, 12, 13]]⟩).width = 2 ∧
    (xor_two_cipher_images
        ⟨4, 4, [[0, 0, 0, 0], [0, 0, 0, 0], [0, 0, 0, 0], [0, 0, 0, 0]]⟩
        ⟨4, 4, [[255, 255, 255, 255], [255, 255, 255, 255],
                [255, 255, 255, 255], [255, 255, 255, 255]]⟩).cell 0 0
      = Nat.xor
          (Grid.cell ⟨4, 4, [[0, 0, 0, 0], [0, 0, 0, 0], [0, 0, 0, 0], [0, 0, 0, 0]]⟩ 0 0)
          (Grid.cell ⟨4, 4, [[255, 255, 255, 255], [255, 255, 255, 255],
                [255, 255, 255, 255], [255, 255, 255, 255]]⟩ 0 0) :=
  ⟨by decide, by decide, by decide,
    (xor_two_cipher_images_spec _ _ 0 0 (by decide) (by decide)).2.2⟩

/-- C10: `xor_two_cipher_images` is commutative. -/
theorem xor_two_cipher_images_comm (c1 c2 : Grid) :
    xor_two_cipher_images c1 c2 = xor_two_cipher_images c2 c1 := by
  simp only [xor_two_cipher_images]
  rw [Nat.min_comm c2.height c1.height, Nat.min_comm c2.width c1.width]
  refine congrArg (Grid.mk _ _) ?_
  refine List.map_congr_left fun i _ => ?_
  refine List.map_congr_left fun j _ => ?_
  exact Nat.xor_comm _ _

/-- C9 (amended): symmetric key generation succeeds exactly when both
requested dimensions are nonnegative (zero sizes give an empty key
buffer); a negative dimension raises numpy's untyped `ValueError`, and on
success the key buffer is well-formed with the requested shape. -/
theorem generate_key_matrix_spec (rng : Nat → Nat → Nat) (h w : Int) :
    ((generate_key_matrix rng (h, w)).isOk = true ↔ 0 ≤ h ∧ 0 ≤ w) ∧
    (h < 0 ∨ w < 0 → generate_key_matrix rng (h, w) = .error .valueError) ∧
    (∀ g, generate_key_matrix rng (h, w) = .ok g →
      g.height = h.toNat ∧ g.width = w.toNat ∧ g.wf) := by
  unfold generate_key_matrix
  by_cases hc : h < 0 ∨ w < 0
  · rw [if_pos hc]
    refine ⟨⟨fun hx => absurd hx (by decide), fun hx => absurd hc (by omega)⟩,
      fun _ => rfl, ?_⟩
    intro g hg
    exact absurd hg (by simp)
  · rw [if_neg hc]
    push_neg at hc
    refine ⟨⟨fun _ => ⟨hc.1, hc.2⟩, fun _ => rfl⟩, fun hx => absurd hx (by omega), ?_⟩
    intro g hg
    obtain rfl := Except.ok.inj hg
    refine ⟨rfl, rfl, by simp, ?_, ?_⟩
    · intro r hr
      obtain ⟨i, _, rfl⟩ := List.mem_map.mp hr
      simp
    · intro r hr v hv
      obtain ⟨i, _, rfl⟩ := List.mem_map.mp hr
      obtain ⟨j, _, rfl⟩ := List.mem_map.mp hv
      exact Nat.mod_lt _ (by norm_num)

/-- C9 counterexample: a requested shape with a zero dimension does not
fail — `generate_key_matrix` returns an (empty) 0×5 key buffer. -/
theorem generate_key_matrix_zero_dim_succeeds :
    generate_key_matrix (fun _ _ => 0) (0, 5) = .ok ⟨0, 5, []⟩ := by
  decide

/-- C9 witness: at shape (2, -3) the generation fails with `ValueError`,
and at shape (2, 3) it succeeds with a well-formed 2×3 key buffer. -/
theorem generate_key_matrix_spec_witness :
    generate_key_matrix (fun i j => i + j) (2, -3) = .error .valueError ∧
    ((generate_key_matrix (fun i j => i + j) (2, 3)).isOk = true ↔
      (0 : Int) ≤ 2 ∧ (0 : Int) ≤ 3) :=
  ⟨(generate_key_matrix_spec (fun i j => i + j) 2 (-3)).2.1 (by omega),
    (generate_key_matrix_spec (fun i j => i + j) 2 3).1⟩

/-! ## Lemmas: modular exponentiation, byte length, and the RSA core -/

theorem powModAux_eq : ∀ fuel e, e < fuel → ∀ b n, 0 < n →
    powModAux fuel b e n = b ^ e % n := by
  intro fuel
  induction fuel with
  | zero => intro e he; omega
  | succ fuel ih =>
    intro e he b n hn
    unfold powModAux
    by_cases he0 : e = 0
    · rw [if_pos he0, he0, pow_zero]
    · rw [if_neg he0]
      have h2 : e / 2 < fuel := by omega
      rw [ih (e / 2) h2 (b * b % n) n hn]
      have hbb : (b * b % n) ^ (e / 2) % n = (b ^ 2) ^ (e / 2) % n := by
        rw [← Nat.pow_mod, pow_two]
      by_cases hpar : e % 2 = 1
      · rw [if_pos hpar, hbb, Nat.mod_mul_mod, ← pow_mul, ← pow_succ]
        have : 2 * (e / 2) + 1 = e := by omega
        rw [this]
      · rw [if_neg hpar, hbb, ← pow_mul]
        have : 2 * (e / 2) = e := by omega
        rw [this]

theorem powMod_eq (b e n : Nat) (hn : 0 < n) : powMod b e n = b ^ e % n :=
  powModAux_eq (e + 1) e (Nat.lt_succ_self e) b n hn

theorem byteLengthAux_zero : ∀ fuel, byteLengthAux fuel 0 = 0 := by
  intro fuel
  cases fuel <;> rfl

theorem byteLengthAux_spec : ∀ fuel n, n < fuel →
    n < 256 ^ byteLengthAux fuel n ∧
      (n ≠ 0 → 256 ^ (byteLengthAux fuel n - 1) ≤ n) := by
  intro fuel
  induction fuel with
  | zero => intro n hn; omega
  | succ fuel ih =>
    intro n hn
    by_cases h0 : n = 0
    · subst h0
      simp [byteLengthAux]
    · rw [byteLengthAux, if_neg h0]
      have hrec : n / 256 < fuel := by omega
      obtain ⟨ih1, ih2⟩ := ih (n / 256) hrec
      constructor
      · rw [pow_succ]
        exact (Nat.div_lt_iff_lt_mul (by norm_num)).mp ih1
      · intro _
        by_cases hq : n / 256 = 0
        · rw [hq, byteLengthAux_zero] at ih1 ⊢
          simpa using Nat.one_le_iff_ne_zero.mpr h0
        · have hb1 : 1 ≤ byteLengthAux fuel (n / 256) := by
            by_contra hb
            push_neg at hb
            have hz : byteLengthAux fuel (n / 256) = 0 := by omega
            rw [hz, pow_zero] at ih1
            omega
          have : 256 ^ (byteLengthAux fuel (n / 256) - 1) ≤ n / 256 := ih2 hq
          calc 256 ^ (byteLengthAux fuel (n / 256) + 1 - 1)
              = 256 ^ (byteLengthAux fuel (n / 256) - 1) * 256 := by
                rw [← pow_succ]
                congr 1
                omega
            _ ≤ n / 256 * 256 := Nat.mul_le_mul_right _ this
            _ ≤ n := Nat.div_mul_le_self n 256

theorem lt_pow_byteLength (n : Nat) : n < 256 ^ byteLength n :=
  (byteLengthAux_spec (n + 1) n (Nat.lt_succ_self n)).1

theorem pow_byteLength_le (n : Nat) (hn : n ≠ 0) : 256 ^ (byteLength n - 1) ≤ n :=
  (byteLengthAux_spec (n + 1) n (Nat.lt_succ_self n)).2 hn

theorem rsa_fermat_cycle (p : Nat) (hp : p.Prime) (m t : Nat) :
    m ^ (1 + t * (p - 1)) ≡ m [MOD p] := by
  haveI : Fact p.Prime := ⟨hp⟩
  have hz : ((m : ZMod p)) ^ (1 + t * (p - 1)) = (m : ZMod p) := by
    rcases eq_or_ne (m : ZMod p) 0 with h0 | h0
    · rw [h0, zero_pow (by omega)]
    · rw [pow_add, pow_one, mul_comm t (p - 1), pow_mul,
        ZMod.pow_card_sub_one_eq_one h0, one_pow, mul_one]
  have hc : ((m ^ (1 + t * (p - 1)) : Nat) : ZMod p) = ((m : Nat) : ZMod p) := by
    push_cast
    exact hz
  exact (ZMod.natCast_eq_natCast_iff _ _ _).mp hc

theorem rsa_exp_mod_prime (p q e d m : Nat) (hp : p.Prime) (hq : q.Prime)
    (hne : p ≠ q) (hed : e * d ≡ 1 [MOD (p - 1) * (q - 1)]) :
    m ^ (e * d) ≡ m [MOD p] := by
  have hp2 := hp.two_le
  have hq2 := hq.two_le
  have hed1 : 1 ≤ e * d := by
    by_contra h
    push_neg at h
    have h0 : e * d = 0 := by omega
    rw [h0] at hed
    have hdvd : (p - 1) * (q - 1) ∣ 1 - 0 := (Nat.modEq_iff_dvd' (by omega)).mp hed
    have hle := Nat.le_of_dvd one_pos (Nat.sub_zero 1 ▸ hdvd)
    have h3 : 3 ≤ p ∨ 3 ≤ q := by omega
    have h2 : 2 ≤ (p - 1) * (q - 1) := by
      rcases h3 with h3 | h3
      · calc 2 = 2 * 1 := rfl
          _ ≤ (p - 1) * (q - 1) := Nat.mul_le_mul (by omega) (by omega)
      · calc 2 = 1 * 2 := rfl
          _ ≤ (p - 1) * (q - 1) := Nat.mul_le_mul (by omega) (by omega)
    omega
  have hmod : e * d ≡ 1 [MOD p - 1] := Nat.ModEq.of_mul_right (q - 1) hed
  obtain ⟨t, ht⟩ : ∃ t, e * d = 1 + t * (p - 1) := by
    have hdvd : (p - 1) ∣ e * d - 1 := (Nat.modEq_iff_dvd' hed1).mp hmod.symm
    obtain ⟨c, hc⟩ := hdvd
    refine ⟨c, ?_⟩
    rw [mul_comm c (p - 1)]
    omega
  rw [ht]
  exact rsa_fermat_cycle p hp m t

/-- The RSA core: with `n = p*q` a product of two distinct primes and
`e*d ≡ 1 (mod (p-1)(q-1))`, decryption inverts encryption on every
residue below the modulus. -/
theorem rsa_core (p q e d m : Nat) (hp : p.Prime) (hq : q.Prime) (hne : p ≠ q)
    (hed : e * d ≡ 1 [MOD (p - 1) * (q - 1)]) (hm : m < p * q) :
    (m ^ e % (p * q)) ^ d % (p * q) = m := by
  have h1 : m ^ (e * d) ≡ m [MOD p] := rsa_exp_mod_prime p q e d m hp hq hne hed
  have h2 : m ^ (e * d) ≡ m [MOD q] := by
    apply rsa_exp_mod_prime q p e d m hq hp (Ne.symm hne)
    rwa [mul_comm ((q : Nat) - 1) ((p : Nat) - 1)]
  have hco : Nat.Coprime p q := (Nat.coprime_primes hp hq).mpr hne
  have h3 : m ^ (e * d) ≡ m [MOD p * q] :=
    (Nat.modEq_and_modEq_iff_modEq_mul hco).mp ⟨h1, h2⟩
  calc (m ^ e % (p * q)) ^ d % (p * q)
      = (m ^ e) ^ d % (p * q) := (Nat.pow_mod _ _ _).symm
    _ = m ^ (e * d) % (p * q) := by rw [← pow_mul]
    _ = m % (p * q) := h3
    _ = m := Nat.mod_eq_of_lt hm

/-! ## Lemmas: byte-string conversions and masking -/

theorem i2osp_length : ∀ len x, (i2osp x len).length = len := by
  intro len
  induction len with
  | zero => intro x; rfl
  | succ len ih =>
    intro x
    simp [i2osp, ih]

theorem os2ip_nil : os2ip [] = 0 := rfl

theorem os2ip_append_singleton (l : List Nat) (b : Nat) :
    os2ip (l ++ [b]) = os2ip l * 256 + b := by
  unfold os2ip
  rw [List.foldl_append]
  rfl

theorem os2ip_cons_zero (bs : List Nat) : os2ip (0 :: bs) = os2ip bs := rfl

theorem mod_pow256_succ (x len : Nat) :
    x % 256 ^ (len + 1) = 256 * (x / 256 % 256 ^ len) + x % 256 := by
  have h := Nat.mod_mul_right_div_self x 256 (256 ^ len)
  have h2 : 256 * 256 ^ len = 256 ^ (len + 1) := by rw [pow_succ]; ring
  have h3 := Nat.div_add_mod (x % (256 * 256 ^ len)) 256
  have h4 : x % (256 * 256 ^ len) % 256 = x % 256 := by
    rw [h2]
    conv_rhs => rw [← Nat.mod_mod_of_dvd x (dvd_pow_self 256 (Nat.succ_ne_zero len))]
  rw [h, h4] at h3
  rw [← h2]
  omega

theorem os2ip_i2osp : ∀ len x, os2ip (i2osp x len) = x % 256 ^ len := by
  intro len
  induction len with
  | zero => intro x; simp [i2osp, os2ip_nil, Nat.mod_one]
  | succ len ih =>
    intro x
    rw [i2osp, os2ip_append_singleton, ih, mod_pow256_succ]
    ring

theorem i2osp_os2ip (bs : List Nat) (hb : ∀ b ∈ bs, b < 256) :
    i2osp (os2ip bs) bs.length = bs := by
  induction bs using List.reverseRecOn with
  | nil => rfl
  | append_singleton l b ih =>
    have hb' : b < 256 := hb b (by simp)
    rw [os2ip_append_singleton]
    have hlen : (l ++ [b]).length = l.length + 1 := by simp
    rw [hlen, i2osp]
    have hdiv : (os2ip l * 256 + b) / 256 = os2ip l := by
      rw [Nat.add_comm, Nat.add_mul_div_right _ _ (by norm_num : (0:Nat) < 256)]
      omega
    have hmod : (os2ip l * 256 + b) % 256 = b := by
      rw [Nat.add_comm, Nat.mul_comm, Nat.add_mul_mod_self_left]
      omega
    rw [hdiv, hmod, ih fun x hx => hb x (by simp [hx])]

theorem os2ip_lt (bs : List Nat) (hb : ∀ b ∈ bs, b < 256) :
    os2ip bs < 256 ^ bs.length := by
  induction bs using List.reverseRecOn with
  | nil => simp [os2ip_nil]
  | append_singleton l b ih =>
    have hb' : b < 256 := hb b (by simp)
    have ihl := ih fun x hx => hb x (by simp [hx])
    rw [os2ip_append_singleton]
    have h1 : os2ip l * 256 + b < (os2ip l + 1) * 256 := by
      rw [Nat.add_mul, one_mul]
      omega
    calc os2ip l * 256 + b < (os2ip l + 1) * 256 := h1
      _ ≤ 256 ^ l.length * 256 := Nat.mul_le_mul_right _ ihl
      _ = 256 ^ (l ++ [b]).length := by
        rw [← pow_succ]
        simp

theorem xorBytes_length (a b : List Nat) :
    (xorBytes a b).length = min a.length b.length :=
  List.length_zipWith _ _ _

theorem xorBytes_cancel : ∀ a m : List Nat, a.length = m.length →
    xorBytes (xorBytes a m) m = a := by
  intro a
  induction a with
  | nil => intro m _; rfl
  | cons x xs ih =>
    intro m hm
    cases m with
    | nil => simp at hm
    | cons y ys =>
      simp only [xorBytes, List.zipWith_cons_cons]
      have hx : Nat.xor (Nat.xor x y) y = x := Nat.xor_cancel_right y x
      have hxs : List.zipWith Nat.xor (List.zipWith Nat.xor xs ys) ys = xs :=
        ih ys (by simpa using hm)
      rw [hx, hxs]

theorem xorBytes_lt : ∀ a m : List Nat, (∀ b ∈ a, b < 256) → (∀ b ∈ m, b < 256) →
    ∀ b ∈ xorBytes a m, b < 256 := by
  intro a
  induction a with
  | nil => intro m _ _ b hb; simp [xorBytes] at hb
  | cons x xs ih =>
    intro m ha hm b hb
    cases m with
    | nil => simp [xorBytes] at hb
    | cons y ys =>
      simp only [xorBytes, List.zipWith_cons_cons, List.mem_cons] at hb
      rcases hb with hb | hb
      · subst hb
        have h8 : (256 : Nat) = 2 ^ 8 := by norm_num
        rw [h8]
        exact Nat.xor_lt_two_pow (by rw [← h8]; exact ha x (by simp))
          (by rw [← h8]; exact hm y (by simp))
      · exact ih ys (fun v hv => ha v (by simp [hv])) (fun v hv => hm v (by simp [hv])) b hb

theorem mgf1_length (alg : HashAlg) (halg : alg.ok) (z : List Nat) (l : Nat) :
    (mgf1 alg z l).length = l := by
  unfold mgf1
  rw [List.length_take]
  have hlen : ((List.range (l / alg.digest_size + 1)).flatMap fun c =>
      alg.hash (z ++ i2osp c 4)).length = (l / alg.digest_size + 1) * alg.digest_size := by
    rw [List.length_flatMap]
    simp only [Function.comp_def]
    have hmap : (List.range (l / alg.digest_size + 1)).map
        (fun c => (alg.hash (z ++ i2osp c 4)).length)
        = List.replicate (l / alg.digest_size + 1) alg.digest_size := by
      rw [List.eq_replicate_iff]
      refine ⟨by simp, ?_⟩
      intro b hb
      obtain ⟨c, _, rfl⟩ := List.mem_map.mp hb
      exact (halg.2 _).1
    rw [hmap]
    simp [List.sum_replicate, smul_eq_mul, Nat.mul_comm]
  rw [hlen]
  have hpos := halg.1
  have hdm := Nat.div_add_mod l alg.digest_size
  have hml := Nat.mod_lt l hpos
  have : l < (l / alg.digest_size + 1) * alg.digest_size := by
    rw [Nat.add_mul, one_mul, Nat.mul_comm]
    omega
  omega

theorem mgf1_lt (alg : HashAlg) (halg : alg.ok) (z : List Nat) (l : Nat) :
    ∀ b ∈ mgf1 alg z l, b < 256 := by
  intro b hb
  unfold mgf1 at hb
  have hb2 := List.mem_of_mem_take hb
  obtain ⟨c, _, hc⟩ := List.mem_flatMap.mp hb2
  exact (halg.2 _).2 b hc

theorem dropWhile_zero_replicate : ∀ n : Nat, ∀ l : List Nat,
    List.dropWhile (fun b => b == 0) (List.replicate n 0 ++ l)
      = List.dropWhile (fun b => b == 0) l := by
  intro n
  induction n with
  | zero => intro l; rfl
  | succ n ih =>
    intro l
    rw [List.replicate_succ, List.cons_append, List.dropWhile_cons_of_pos (by simp)]
    exact ih l

/-! ## Lemmas: OAEP -/

theorem oaep_pad_eq (alg : HashAlg) (k : Nat) (seed msg : List Nat)
    (hlen : (msg.length : Int) ≤ (k : Int) - 2 * (alg.digest_size : Int) - 2) :
    oaep_pad alg k seed msg = .ok (oaepEM alg k seed msg) := by
  unfold oaep_pad oaepEM oaepMaskedSeed oaepMaskedDB oaepDB
  rw [if_neg (by omega)]

theorem length_oaepDB (alg : HashAlg) (halg : alg.ok) (k : Nat) (msg : List Nat)
    (hlen : msg.length + 2 * alg.digest_size + 2 ≤ k) :
    (oaepDB alg k msg).length = k - alg.digest_size - 1 := by
  unfold oaepDB
  simp [(halg.2 []).1]
  omega

theorem mem_oaepDB_lt (alg : HashAlg) (halg : alg.ok) (k : Nat) (msg : List Nat)
    (hmsg : ∀ b ∈ msg, b < 256) : ∀ b ∈ oaepDB alg k msg, b < 256 := by
  intro b hb
  unfold oaepDB at hb
  rcases List.mem_append.mp hb with h | h
  · rcases List.mem_append.mp h with h1 | h1
    · exact (halg.2 []).2 b h1
    · have := (List.mem_replicate.mp h1).2
      omega
  · rcases List.mem_cons.mp h with h3 | h3
    · omega
    · exact hmsg b h3

theorem length_oaepMaskedDB (alg : HashAlg) (halg : alg.ok) (k : Nat)
    (seed msg : List Nat) (hlen : msg.length + 2 * alg.digest_size + 2 ≤ k) :
    (oaepMaskedDB alg k seed msg).length = k - alg.digest_size - 1 := by
  unfold oaepMaskedDB
  rw [xorBytes_length, length_oaepDB alg halg k msg hlen, mgf1_length alg halg]
  omega

theorem mem_oaepMaskedDB_lt (alg : HashAlg) (halg : alg.ok) (k : Nat)
    (seed msg : List Nat) (hmsg : ∀ b ∈ msg, b < 256) :
    ∀ b ∈ oaepMaskedDB alg k seed msg, b < 256 := by
  unfold oaepMaskedDB
  exact xorBytes_lt _ _ (mem_oaepDB_lt alg halg k msg hmsg) (mgf1_lt alg halg _ _)

theorem length_oaepMaskedSeed (alg : HashAlg) (halg : alg.ok) (k : Nat)
    (seed msg : List Nat) (hseedlen : seed.length = alg.digest_size) :
    (oaepMaskedSeed alg k seed msg).length = alg.digest_size := by
  unfold oaepMaskedSeed
  rw [xorBytes_length, hseedlen, mgf1_length alg halg]
  omega

theorem mem_oaepMaskedSeed_lt (alg : HashAlg) (halg : alg.ok) (k : Nat)
    (seed msg : List Nat) (hseed : ∀ b ∈ seed, b < 256) :
    ∀ b ∈ oaepMaskedSeed alg k seed msg, b < 256 := by
  unfold oaepMaskedSeed
  exact xorBytes_lt _ _ hseed (mgf1_lt alg halg _ _)

theorem length_oaepEM (alg : HashAlg) (halg : alg.ok) (k : Nat)
    (seed msg : List Nat) (hseedlen : seed.length = alg.digest_size)
    (hlen : msg.length + 2 * alg.digest_size + 2 ≤ k) :
    (oaepEM alg k seed msg).length = k := by
  unfold oaepEM
  rw [List.cons_append, List.length_cons, List.length_append,
    length_oaepMaskedSeed alg halg k seed msg hseedlen,
    length_oaepMaskedDB alg halg k seed msg hlen]
  omega

theorem mem_oaepEM_lt (alg : HashAlg) (halg : alg.ok) (k : Nat)
    (seed msg : List Nat) (hseed : ∀ b ∈ seed, b < 256)
    (hmsg : ∀ b ∈ msg, b < 256) : ∀ b ∈ oaepEM alg k seed msg, b < 256 := by
  intro b hb
  unfold oaepEM at hb
  rw [List.cons_append] at hb
  rcases List.mem_cons.mp hb with h | h
  · omega
  · rcases List.mem_append.mp h with h2 | h2
    · exact mem_oaepMaskedSeed_lt alg halg k seed msg hseed b h2
    · exact mem_oaepMaskedDB_lt alg halg k seed msg hmsg b h2

theorem os2ip_oaepEM_lt (alg : HashAlg) (halg : alg.ok) (k : Nat)
    (seed msg : List Nat) (hseedlen : seed.length = alg.digest_size)
    (hseed : ∀ b ∈ seed, b < 256) (hmsg : ∀ b ∈ msg, b < 256)
    (hlen : msg.length + 2 * alg.digest_size + 2 ≤ k) :
    os2ip (oaepEM alg k seed msg) < 256 ^ (k - 1) := by
  unfold oaepEM
  rw [List.cons_append, os2ip_cons_zero]
  have hblt : ∀ b ∈ oaepMaskedSeed alg k seed msg ++ oaepMaskedDB alg k seed msg, b < 256 := by
    intro b hb
    rcases List.mem_append.mp hb with h | h
    · exact mem_oaepMaskedSeed_lt alg halg k seed msg hseed b h
    · exact mem_oaepMaskedDB_lt alg halg k seed msg hmsg b h
  have := os2ip_lt _ hblt
  rwa [List.length_append, length_oaepMaskedSeed alg halg k seed msg hseedlen,
    length_oaepMaskedDB alg halg k seed msg hlen,
    show alg.digest_size + (k - alg.digest_size - 1) = k - 1 by omega] at this

theorem oaep_unpad_oaepEM (alg : HashAlg) (halg : alg.ok) (k : Nat)
    (seed msg : List Nat) (hseedlen : seed.length = alg.digest_size)
    (hlen : msg.length + 2 * alg.digest_size + 2 ≤ k) :
    oaep_unpad alg k (oaepEM alg k seed msg) = .ok msg := by
  have hMSlen := length_oaepMaskedSeed alg halg k seed msg hseedlen
  have htake : (oaepMaskedSeed alg k seed msg ++ oaepMaskedDB alg k seed msg).take
      alg.digest_size = oaepMaskedSeed alg k seed msg := List.take_left' hMSlen
  have hdrop : (oaepMaskedSeed alg k seed msg ++ oaepMaskedDB alg k seed msg).drop
      alg.digest_size = oaepMaskedDB alg k seed msg := List.drop_left' hMSlen
  have hseedrec : xorBytes (oaepMaskedSeed alg k seed msg)
      (mgf1 alg (oaepMaskedDB alg k seed msg) alg.digest_size) = seed := by
    unfold oaepMaskedSeed
    exact xorBytes_cancel seed _ (by rw [hseedlen, mgf1_length alg halg])
  have hdbrec : xorBytes (oaepMaskedDB alg k seed msg)
      (mgf1 alg seed (k - alg.digest_size - 1)) = oaepDB alg k msg := by
    unfold oaepMaskedDB
    exact xorBytes_cancel _ _
      (by rw [length_oaepDB alg halg k msg hlen, mgf1_length alg halg])
  have htakedb : (oaepDB alg k msg).take alg.digest_size = alg.hash [] := by
    unfold oaepDB
    rw [List.append_assoc]
    exact List.take_left' (halg.2 []).1
  have hdropdb : (oaepDB alg k msg).drop alg.digest_size
      = List.replicate (k - msg.length - 2 * alg.digest_size - 2) 0 ++ 1 :: msg := by
    unfold oaepDB
    rw [List.append_assoc]
    exact List.drop_left' (halg.2 []).1
  have hdw : List.dropWhile (fun b => b == 0)
      (List.replicate (k - msg.length - 2 * alg.digest_size - 2) 0 ++ 1 :: msg)
      = 1 :: msg := by
    rw [dropWhile_zero_replicate, List.dropWhile_cons_of_neg (by simp)]
  have hEMcons : oaepEM alg k seed msg
      = 0 :: (oaepMaskedSeed alg k seed msg ++ oaepMaskedDB alg k seed msg) := rfl
  have hcond : ¬((0 :: (oaepMaskedSeed alg k seed msg ++ oaepMaskedDB alg k seed msg)).length ≠ k
      ∨ (k : Int) < 2 * (alg.digest_size : Int) + 2) := by
    rw [← hEMcons]
    push_neg
    exact ⟨length_oaepEM alg halg k seed msg hseedlen hlen, by omega⟩
  rw [hEMcons]
  unfold oaep_unpad
  rw [if_neg hcond]
  simp only [htake, hdrop, hseedrec, hdbrec, htakedb, hdropdb, hdw]
  rw [if_neg (by simp)]

theorem rsa_encrypt_eq (alg : HashAlg) (pk : RsaPublicKey) (seed msg : List Nat)
    (hlen : (msg.length : Int) ≤ (byteLength pk.n : Int) - 2 * (alg.digest_size : Int) - 2) :
    rsa_encrypt alg pk seed msg = .ok
      (i2osp (powMod (os2ip (oaepEM alg (byteLength pk.n) seed msg)) pk.e pk.n)
        (byteLength pk.n)) := by
  unfold rsa_encrypt
  show Except.map (fun em => i2osp (powMod (os2ip em) pk.e pk.n) (byteLength pk.n))
    (oaep_pad alg (byteLength pk.n) seed msg) = _
  rw [oaep_pad_eq alg (byteLength pk.n) seed msg hlen]
  rfl

theorem rsa_decrypt_eq (alg : HashAlg) (sk : RsaPrivateKey) (c : List Nat)
    (hclen : c.length = byteLength sk.n) :
    rsa_decrypt alg sk c = oaep_unpad alg (byteLength sk.n)
      (i2osp (powMod (os2ip c) sk.d sk.n) (byteLength sk.n)) := by
  unfold rsa_decrypt
  rw [if_neg (by simp [hclen])]

/-- Shared core of the RSA-OAEP round trip. -/
theorem rsa_roundtrip_aux (alg : HashAlg) (p q e d : Nat)
    (seed plaintext : List Nat) (halg : alg.ok)
    (hp : p.Prime) (hq : q.Prime) (hne : p ≠ q)
    (hed : e * d ≡ 1 [MOD (p - 1) * (q - 1)])
    (hseedlen : seed.length = alg.digest_size)
    (hseedlt : ∀ b ∈ seed, b < 256)
    (hplt : ∀ b ∈ plaintext, b < 256)
    (hlen : (plaintext.length : Int)
      ≤ (byteLength (p * q) : Int) - 2 * (alg.digest_size : Int) - 2) :
    (rsa_encrypt alg ⟨p * q, e⟩ seed plaintext).bind
      (fun c => rsa_decrypt alg ⟨p, q, p * q, e, d⟩ c) = .ok plaintext := by
  have hn4 : 4 ≤ p * q := Nat.mul_le_mul hp.two_le hq.two_le
  have hn0 : 0 < p * q := by omega
  have hkub : p * q < 256 ^ byteLength (p * q) := lt_pow_byteLength (p * q)
  have hklb : 256 ^ (byteLength (p * q) - 1) ≤ p * q :=
    pow_byteLength_le (p * q) (by omega)
  have hklen : plaintext.length + 2 * alg.digest_size + 2 ≤ byteLength (p * q) := by
    omega
  rw [rsa_encrypt_eq alg ⟨p * q, e⟩ seed plaintext hlen, except_bind_ok,
    rsa_decrypt_eq alg ⟨p, q, p * q, e, d⟩ _ (i2osp_length _ _)]
  simp only []
  have hem_lt : os2ip (oaepEM alg (byteLength (p * q)) seed plaintext) < 256 ^ (byteLength (p * q) - 1) :=
    os2ip_oaepEM_lt alg halg _ seed plaintext hseedlen hseedlt hplt hklen
  have hem_lt_n : os2ip (oaepEM alg (byteLength (p * q)) seed plaintext) < p * q :=
    lt_of_lt_of_le hem_lt hklb
  rw [powMod_eq _ _ _ hn0, powMod_eq _ _ _ hn0]
  have h1 : os2ip (i2osp (os2ip (oaepEM alg (byteLength (p * q)) seed plaintext) ^ e % (p * q))
      (byteLength (p * q)))
      = os2ip (oaepEM alg (byteLength (p * q)) seed plaintext) ^ e % (p * q) := by
    rw [os2ip_i2osp]
    exact Nat.mod_eq_of_lt (lt_of_lt_of_le (Nat.mod_lt _ hn0) (le_of_lt hkub))
  rw [h1, rsa_core p q e d _ hp hq hne hed hem_lt_n]
  have h3 : i2osp (os2ip (oaepEM alg (byteLength (p * q)) seed plaintext))
      (byteLength (p * q)) = oaepEM alg (byteLength (p * q)) seed plaintext := by
    have := i2osp_os2ip (oaepEM alg (byteLength (p * q)) seed plaintext)
      (mem_oaepEM_lt alg halg _ seed plaintext hseedlt hplt)
    rwa [length_oaepEM alg halg _ seed plaintext hseedlen hklen] at this
  rw [h3]
  exact oaep_unpad_oaepEM alg halg _ seed plaintext hseedlen hklen

/-- C2: for every RSA key pair (two distinct primes, exponents inverse
modulo `(p-1)(q-1)`), well-behaved hash collaborator and valid OAEP seed,
decrypting an encryption of any plaintext within the OAEP length bound
`k - 2*hLen - 2` returns exactly the plaintext.  With SHA-256
(`digest_size = 32`) and a 2048-bit modulus (`k = 256`) the bound is the
claim's 190 bytes. -/
theorem rsa_decrypt_encrypt_roundtrip (alg : HashAlg) (p q e d : Nat)
    (seed plaintext : List Nat) (halg : alg.ok)
    (hp : p.Prime) (hq : q.Prime) (hne : p ≠ q)
    (hed : e * d ≡ 1 [MOD (p - 1) * (q - 1)])
    (hseedlen : seed.length = alg.digest_size)
    (hseedlt : ∀ b ∈ seed, b < 256)
    (hplt : ∀ b ∈ plaintext, b < 256)
    (hlen : (plaintext.length : Int)
      ≤ (byteLength (p * q) : Int) - 2 * (alg.digest_size : Int) - 2) :
    (rsa_encrypt alg ⟨p * q, e⟩ seed plaintext).bind
      (fun c => rsa_decrypt alg ⟨p, q, p * q, e, d⟩ c) = .ok plaintext :=
  rsa_roundtrip_aux alg p q e d seed plaintext halg hp hq hne hed
    hseedlen hseedlt hplt hlen

/-- C2 witness: a concrete key pair (p = 4099, q = 4111, e = 65537,
d = e⁻¹ mod φ) and a length-1 digest collaborator; the empty plaintext
meets the OAEP bound `k - 2*hLen - 2 = 0` and round-trips. -/
theorem rsa_decrypt_encrypt_roundtrip_witness :
    (rsa_encrypt ⟨fun _ => [0], 1⟩ ⟨4099 * 4111, 65537⟩ [7] []).bind
      (fun c => rsa_decrypt ⟨fun _ => [0], 1⟩ ⟨4099, 4111, 4099 * 4111, 65537, 15665993⟩ c)
      = .ok [] :=
  rsa_decrypt_encrypt_roundtrip ⟨fun _ => [0], 1⟩ 4099 4111 65537 15665993 [7] []
    ⟨Nat.one_pos, fun x => ⟨rfl, by intro b hb; simp at hb; omega⟩⟩
    (by norm_num) (by norm_num) (by decide) (by decide)
    (by decide) (by decide) (by decide) (by decide)

theorem oaepEM_inj_seed (alg : HashAlg) (halg : alg.ok) (k : Nat)
    (s1 s2 msg : List Nat) (h1 : s1.length = alg.digest_size)
    (h2 : s2.length = alg.digest_size)
    (hEM : oaepEM alg k s1 msg = oaepEM alg k s2 msg) : s1 = s2 := by
  unfold oaepEM at hEM
  rw [List.cons_append, List.cons_append] at hEM
  injection hEM with _ htail
  have hlen12 : (oaepMaskedSeed alg k s1 msg).length
      = (oaepMaskedSeed alg k s2 msg).length := by
    rw [length_oaepMaskedSeed alg halg k s1 msg h1,
      length_oaepMaskedSeed alg halg k s2 msg h2]
  obtain ⟨hMS, hMDB⟩ := List.append_inj htail hlen12
  have hs1 : xorBytes (oaepMaskedSeed alg k s1 msg)
      (mgf1 alg (oaepMaskedDB alg k s1 msg) alg.digest_size) = s1 := by
    unfold oaepMaskedSeed
    exact xorBytes_cancel s1 _ (by rw [h1, mgf1_length alg halg])
  have hs2 : xorBytes (oaepMaskedSeed alg k s2 msg)
      (mgf1 alg (oaepMaskedDB alg k s2 msg) alg.digest_size) = s2 := by
    unfold oaepMaskedSeed
    exact xorBytes_cancel s2 _ (by rw [h2, mgf1_length alg halg])
  rw [← hs1, ← hs2, hMS, hMDB]

/-- C8: OAEP encryption is seed-determined and injective in the seed, so
two encryptions of the fixed plaintext `b"test"` under the same public
key with distinct (internal random) seeds give different ciphertexts,
and both decrypt back to `b"test"` under the private key. -/
theorem rsa_encrypt_probabilistic (alg : HashAlg) (p q e d : Nat)
    (s1 s2 : List Nat) (halg : alg.ok)
    (hp : p.Prime) (hq : q.Prime) (hne : p ≠ q)
    (hed : e * d ≡ 1 [MOD (p - 1) * (q - 1)])
    (hs1len : s1.length = alg.digest_size) (hs1lt : ∀ b ∈ s1, b < 256)
    (hs2len : s2.length = alg.digest_size) (hs2lt : ∀ b ∈ s2, b < 256)
    (hsneq : s1 ≠ s2)
    (hlen : (testBytes.length : Int)
      ≤ (byteLength (p * q) : Int) - 2 * (alg.digest_size : Int) - 2) :
    rsa_encrypt alg ⟨p * q, e⟩ s1 testBytes ≠ rsa_encrypt alg ⟨p * q, e⟩ s2 testBytes ∧
    (rsa_encrypt alg ⟨p * q, e⟩ s1 testBytes).bind
      (fun c => rsa_decrypt alg ⟨p, q, p * q, e, d⟩ c) = .ok testBytes ∧
    (rsa_encrypt alg ⟨p * q, e⟩ s2 testBytes).bind
      (fun c => rsa_decrypt alg ⟨p, q, p * q, e, d⟩ c) = .ok testBytes := by
  have htb : ∀ b ∈ testBytes, b < 256 := by decide
  have hn4 : 4 ≤ p * q := Nat.mul_le_mul hp.two_le hq.two_le
  have hn0 : 0 < p * q := by omega
  have hkub : p * q < 256 ^ byteLength (p * q) := lt_pow_byteLength (p * q)
  have hklb : 256 ^ (byteLength (p * q) - 1) ≤ p * q :=
    pow_byteLength_le (p * q) (by omega)
  have hklen : testBytes.length + 2 * alg.digest_size + 2 ≤ byteLength (p * q) := by
    omega
  refine ⟨?_, rsa_roundtrip_aux alg p q e d s1 testBytes halg hp hq hne hed
      hs1len hs1lt htb hlen,
    rsa_roundtrip_aux alg p q e d s2 testBytes halg hp hq hne hed
      hs2len hs2lt htb hlen⟩
  intro hEq
  rw [rsa_encrypt_eq alg ⟨p * q, e⟩ s1 testBytes hlen,
    rsa_encrypt_eq alg ⟨p * q, e⟩ s2 testBytes hlen] at hEq
  simp only [] at hEq
  have hc := Except.ok.inj hEq
  rw [powMod_eq _ _ _ hn0, powMod_eq _ _ _ hn0] at hc
  have hm1 : os2ip (oaepEM alg (byteLength (p * q)) s1 testBytes) < p * q :=
    lt_of_lt_of_le
      (os2ip_oaepEM_lt alg halg _ s1 testBytes hs1len hs1lt htb hklen) hklb
  have hm2 : os2ip (oaepEM alg (byteLength (p * q)) s2 testBytes) < p * q :=
    lt_of_lt_of_le
      (os2ip_oaepEM_lt alg halg _ s2 testBytes hs2len hs2lt htb hklen) hklb
  have hcint : os2ip (oaepEM alg (byteLength (p * q)) s1 testBytes) ^ e % (p * q)
      = os2ip (oaepEM alg (byteLength (p * q)) s2 testBytes) ^ e % (p * q) := by
    have h1 := congrArg os2ip hc
    rwa [os2ip_i2osp, os2ip_i2osp,
      Nat.mod_eq_of_lt (lt_of_lt_of_le (Nat.mod_lt _ hn0) (le_of_lt hkub)),
      Nat.mod_eq_of_lt (lt_of_lt_of_le (Nat.mod_lt _ hn0) (le_of_lt hkub))] at h1
  have hmint : os2ip (oaepEM alg (byteLength (p * q)) s1 testBytes)
      = os2ip (oaepEM alg (byteLength (p * q)) s2 testBytes) := by
    have h2 := congrArg (fun x => x ^ d % (p * q)) hcint
    simp only [] at h2
    rwa [rsa_core p q e d _ hp hq hne hed hm1,
      rsa_core p q e d _ hp hq hne hed hm2] at h2
  have hEMeq : oaepEM alg (byteLength (p * q)) s1 testBytes
      = oaepEM alg (byteLength (p * q)) s2 testBytes := by
    have e1 : i2osp (os2ip (oaepEM alg (byteLength (p * q)) s1 testBytes))
        (byteLength (p * q)) = oaepEM alg (byteLength (p * q)) s1 testBytes := by
      have := i2osp_os2ip (oaepEM alg (byteLength (p * q)) s1 testBytes)
        (mem_oaepEM_lt alg halg _ s1 testBytes hs1lt htb)
      rwa [length_oaepEM alg halg _ s1 testBytes hs1len hklen] at this
    have e2 : i2osp (os2ip (oaepEM alg (byteLength (p * q)) s2 testBytes))
        (byteLength (p * q)) = oaepEM alg (byteLength (p * q)) s2 testBytes := by
      have := i2osp_os2ip (oaepEM alg (byteLength (p * q)) s2 testBytes)
        (mem_oaepEM_lt alg halg _ s2 testBytes hs2lt htb)
      rwa [length_oaepEM alg halg _ s2 testBytes hs2len hklen] at this
    rw [← e1, ← e2, hmint]
  exact hsneq (oaepEM_inj_seed alg halg _ s1 s2 testBytes hs1len hs2len hEMeq)

theorem powMod_natCast (a k p : Nat) (hp : 0 < p) :
    ((powMod a k p : Nat) : ZMod p) = (a : ZMod p) ^ k := by
  rw [powMod_eq _ _ _ hp, ZMod.natCast_mod, Nat.cast_pow]

theorem zmod_pow_eq_one_iff (a k p : Nat) (hp : 1 < p) :
    (a : ZMod p) ^ k = 1 ↔ powMod a k p = 1 := by
  have hp0 : 0 < p := by omega
  rw [← powMod_natCast a k p hp0]
  constructor
  · intro h
    have h2 : ((powMod a k p : Nat) : ZMod p) = ((1 : Nat) : ZMod p) := by
      simpa using h
    have h3 : powMod a k p % p = 1 % p := (ZMod.natCast_eq_natCast_iff _ _ _).mp h2
    have h4 : powMod a k p < p := by
      rw [powMod_eq _ _ _ hp0]
      exact Nat.mod_lt _ hp0
    rwa [Nat.mod_eq_of_lt h4, Nat.mod_eq_of_lt hp] at h3
  · intro h
    rw [h]
    exact Nat.cast_one

theorem prime_dvd_foldr_prime_pows : ∀ (facs : List (Nat × Nat)) (r : Nat), r.Prime →
    (∀ qe ∈ facs, (qe.1).Prime) →
    r ∣ facs.foldr (fun qe acc => qe.1 ^ qe.2 * acc) 1 →
    ∃ qe ∈ facs, r = qe.1 := by
  intro facs
  induction facs with
  | nil =>
    intro r hr _ hdvd
    simp only [List.foldr_nil] at hdvd
    exact absurd (Nat.dvd_one.mp hdvd) hr.ne_one
  | cons qe rest ih =>
    intro r hr hfp hdvd
    simp only [List.foldr_cons] at hdvd
    rcases (Nat.Prime.dvd_mul hr).mp hdvd with h | h
    · have hdq : r ∣ qe.1 := hr.dvd_of_dvd_pow h
      have hq := hfp qe (by simp)
      exact ⟨qe, by simp, (Nat.prime_dvd_prime_iff_eq hr hq).mp hdq⟩
    · obtain ⟨qe2, hmem, heq⟩ := ih r hr (fun x hx => hfp x (by simp [hx])) h
      exact ⟨qe2, by simp [hmem], heq⟩

/-- A Pratt-style primality certificate checkable by the kernel via
`powMod`: `a` has order `p - 1` modulo `p` when `a^(p-1) = 1` and
`a^((p-1)/q) ≠ 1` for each prime `q` in the given factorisation of
`p - 1`. -/
theorem prime_of_pratt_cert (p a : Nat) (facs : List (Nat × Nat))
    (hp1 : 1 < p)
    (hfp : ∀ qe ∈ facs, (qe.1).Prime)
    (hprod : p - 1 = facs.foldr (fun qe acc => qe.1 ^ qe.2 * acc) 1)
    (ha : powMod a (p - 1) p = 1)
    (hd : ∀ qe ∈ facs, powMod a ((p - 1) / qe.1) p ≠ 1) : p.Prime := by
  refine lucas_primality p (a : ZMod p) ?_ ?_
  · exact (zmod_pow_eq_one_iff a (p - 1) p hp1).mpr ha
  · intro r hr hrdvd
    rw [hprod] at hrdvd
    obtain ⟨qe, hmem, rfl⟩ := prime_dvd_foldr_prime_pows facs r hr hfp hrdvd
    intro hcontra
    exact hd qe hmem ((zmod_pow_eq_one_iff a ((p - 1) / qe.1) p hp1).mp hcontra)

/-- C8 witness: a concrete key pair (p = 268438501, q = 268454161,
e = 65537, d = e⁻¹ mod φ, so k = 8) with the two distinct seeds [3] and
[5] encrypting `b"test"`; the primality of p and q is established by
Pratt certificates over `powMod`. -/
theorem rsa_encrypt_probabilistic_witness :
    rsa_encrypt ⟨fun _ => [0], 1⟩ ⟨268438501 * 268454161, 65537⟩ [3] testBytes
      ≠ rsa_encrypt ⟨fun _ => [0], 1⟩ ⟨268438501 * 268454161, 65537⟩ [5] testBytes ∧
    (rsa_encrypt ⟨fun _ => [0], 1⟩ ⟨268438501 * 268454161, 65537⟩ [3] testBytes).bind
      (fun c => rsa_decrypt ⟨fun _ => [0], 1⟩
        ⟨268438501, 268454161, 268438501 * 268454161, 65537, 45078542799753473⟩ c)
      = .ok testBytes ∧
    (rsa_encrypt ⟨fun _ => [0], 1⟩ ⟨268438501 * 268454161, 65537⟩ [5] testBytes).bind
      (fun c => rsa_decrypt ⟨fun _ => [0], 1⟩
        ⟨268438501, 268454161, 268438501 * 268454161, 65537, 45078542799753473⟩ c)
      = .ok testBytes :=
  rsa_encrypt_probabilistic ⟨fun _ => [0], 1⟩ 268438501 268454161 65537
    45078542799753473 [3] [5]
    ⟨Nat.one_pos, fun x => ⟨rfl, by intro b hb; simp at hb; omega⟩⟩
    (prime_of_pratt_cert 268438501 2 [(2, 2), (3, 2), (5, 3), (11, 2), (17, 1), (29, 1)]
      (by decide) (by intro qe hqe; fin_cases hqe <;> norm_num) (by decide)
      (by decide) (by intro qe hqe; fin_cases hqe <;> decide))
    (prime_of_pratt_cert 268454161 21
      [(2, 4), (3, 2), (5, 1), (13, 1), (23, 1), (29, 1), (43, 1)]
      (by decide) (by intro qe hqe; fin_cases hqe <;> norm_num) (by decide)
      (by decide) (by intro qe hqe; fin_cases hqe <;> decide))
    (by decide) (by decide)
    (by decide) (by decide) (by decide) (by decide) (by decide) (by decide)

/-- C5 (amended): `generate_rsa_key_pair` enforces no 2048-bit minimum;
every bit length the library accepts (at least 512, with the fixed
exponent 65537) produces a key pair, whatever primes the library's
generator supplies. -/
theorem generate_rsa_key_pair_no_2048_floor (p q ks : Nat) (hks : 512 ≤ ks) :
    (generate_rsa_key_pair p q ks).isOk = true := by
  unfold generate_rsa_key_pair rsa_generate_private_key
  rw [if_neg (by simp), if_neg (by omega)]
  rfl

/-- C5 counterexample: requesting a 1024-bit key pair does not fail —
a full key pair is generated and returned. -/
theorem generate_rsa_key_pair_1024_produces_key :
    generate_rsa_key_pair 61 53 1024
      = .ok (⟨61, 53, 3233, 65537, 2753⟩, ⟨3233, 65537⟩) := by
  decide

/-- C5 witness: bit length 1024 (with other primes) is accepted. -/
theorem generate_rsa_key_pair_no_2048_floor_witness :
    512 ≤ 1024 ∧ (generate_rsa_key_pair 67 71 1024).isOk = true :=
  ⟨by decide, generate_rsa_key_pair_no_2048_floor 67 71 1024 (by decide)⟩

/-- C6: a plaintext longer than `k - 2*hLen - 2` bytes (`k` the modulus
byte length, `hLen` the digest size, 32 for SHA-256) is rejected by
OAEP encryption with the library's `ValueError` ("Data too long for key
size") — the failure the specification labels MessageTooLong — and no
ciphertext is produced. -/
theorem rsa_encrypt_message_too_long (alg : HashAlg) (pk : RsaPublicKey)
    (seed msg : List Nat)
    (hlen : (msg.length : Int)
      > (byteLength pk.n : Int) - 2 * (alg.digest_size : Int) - 2) :
    rsa_encrypt alg pk seed msg = .error .valueError := by
  unfold rsa_encrypt
  show Except.map (fun em => i2osp (powMod (os2ip em) pk.e pk.n) (byteLength pk.n))
    (oaep_pad alg (byteLength pk.n) seed msg) = _
  unfold oaep_pad
  rw [if_pos hlen]
  rfl

/-- C6 witness: a 2-byte modulus with a 1-byte digest admits no plaintext
at all (bound is negative); a 1-byte message is rejected. -/
theorem rsa_encrypt_message_too_long_witness :
    rsa_encrypt ⟨fun _ => [0], 1⟩ ⟨3233, 17⟩ [9] [1] = .error .valueError :=
  rsa_encrypt_message_too_long ⟨fun _ => [0], 1⟩ ⟨3233, 17⟩ [9] [1] (by decide)

/-- C7: a private key exported under a (nonempty) password can be loaded
back exactly with that password and with no other: the wrong password
fails with the library's `ValueError` ("Bad decrypt. Incorrect
password?") — the failure the specification labels DecryptionFailure —
a wrong or missing password never yields key material, and the correct
password returns a key equal to (hence decrypt-equivalent to) the
original. -/
theorem pem_password_roundtrip (fs : FileSystem) (key : RsaPrivateKey)
    (filename : String) (pw : List Nat) (hpw : pw ≠ []) (fs' : FileSystem)
    (hsave : save_private_key_to_pem fs key filename (some pw) = .ok fs') :
    (∀ given, (load_private_key_from_pem fs' filename given).isOk = true
      ↔ given = some pw) ∧
    load_private_key_from_pem fs' filename (some pw) = .ok key ∧
    (∀ pw2, pw2 ≠ pw →
      load_private_key_from_pem fs' filename (some pw2) = .error .valueError) := by
  cases pw with
  | nil => exact absurd rfl hpw
  | cons a as =>
    have hfs' : fs' = (filename, ⟨some (a :: as), key⟩) :: fs := by
      unfold save_private_key_to_pem at hsave
      exact (Except.ok.inj hsave).symm
    subst hfs'
    have hfind : (((filename, (⟨some (a :: as), key⟩ : PemPrivateRecord)) :: fs).find?
        fun entry => entry.1 == filename) = some (filename, ⟨some (a :: as), key⟩) :=
      List.find?_cons_of_pos _ (by simp)
    have hload : ∀ given, load_private_key_from_pem
        ((filename, (⟨some (a :: as), key⟩ : PemPrivateRecord)) :: fs) filename given
        = load_pem_private_key ⟨some (a :: as), key⟩ given := by
      intro given
      unfold load_private_key_from_pem
      rw [hfind]
    refine ⟨?_, ?_, ?_⟩
    · intro given
      rw [hload]
      cases given with
      | none => simp [load_pem_private_key, Except.isOk, Except.toBool]
      | some g =>
        by_cases hg : g = a :: as
        · subst hg
          simp [load_pem_private_key, Except.isOk, Except.toBool]
        · simp [load_pem_private_key, Except.isOk, Except.toBool, hg]
    · rw [hload]
      simp [load_pem_private_key]
    · intro pw2 hpw2
      rw [hload]
      simp [load_pem_private_key, hpw2]

/-- C7 witness: exporting a key under password "abc123" and loading with
"wrong" fails; loading with "abc123" returns the identical key. -/
theorem pem_password_roundtrip_witness :
    load_private_key_from_pem
        [("private_key.pem", ⟨some [97, 98, 99, 49, 50, 51], ⟨61, 53, 3233, 65537, 2753⟩⟩)]
        "private_key.pem" (some [119, 114, 111, 110, 103]) = .error .valueError ∧
    load_private_key_from_pem
        [("private_key.pem", ⟨some [97, 98, 99, 49, 50, 51], ⟨61, 53, 3233, 65537, 2753⟩⟩)]
        "private_key.pem" (some [97, 98, 99, 49, 50, 51])
      = .ok ⟨61, 53, 3233, 65537, 2753⟩ :=
  ⟨(pem_password_roundtrip [] ⟨61, 53, 3233, 65537, 2753⟩ "private_key.pem"
      [97, 98, 99, 49, 50, 51] (by decide) _ rfl).2.2 [119, 114, 111, 110, 103] (by decide),
    (pem_password_roundtrip [] ⟨61, 53, 3233, 65537, 2753⟩ "private_key.pem"
      [97, 98, 99, 49, 50, 51] (by decide) _ rfl).2.1⟩
